import Mathlib

/-!
Shallow embedding of the markdown post-processing pipeline of
`word_parser++.py` (class WordDocumentParser): line classification,
list-block renormalization, metadata annotation, table grouping and
image-placeholder resolution.  A line is modelled as a list of
characters; the Python string helpers used by the source (lstrip,
rstrip, strip, startswith, the `in` substring operator and the regular
expressions applied by the code) are embedded explicitly.
-/

abbrev Line := List Char

def chars (s : String) : Line := s.data

/-- Python whitespace, as stripped by str.lstrip / str.rstrip and matched by \s. -/
def isPySpace (c : Char) : Bool :=
  c == ' ' || c == '\t' || c == '\n' || c == '\r' || c == Char.ofNat 11 || c == Char.ofNat 12

def lstrip (l : Line) : Line := l.dropWhile isPySpace

def rstrip (l : Line) : Line := (l.reverse.dropWhile isPySpace).reverse

def strip (l : Line) : Line := lstrip (rstrip l)

def startsWithL : Line → Line → Bool
  | _, [] => true
  | [], _ :: _ => false
  | c :: cs, d :: ds => c == d && startsWithL cs ds

/-- Python substring containment, the `in` operator on str. -/
def containsSub : Line → Line → Bool
  | [], pat => pat.isEmpty
  | c :: cs, pat => startsWithL (c :: cs) pat || containsSub cs pat

/-- Embedding of re.match with the digits-then-dot pattern anchored at the start. -/
def matchNumDot (s : Line) : Bool :=
  let ds := s.takeWhile Char.isDigit
  !ds.isEmpty && ((s.drop ds.length).head? == some '.')

/-- Embedding of re.sub removing an initial digits-dot-spaces run. -/
def subNumDot (s : Line) : Line :=
  ((s.dropWhile Char.isDigit).drop 1).dropWhile isPySpace

/-- Embedding of WordDocumentParser._is_list_item. -/
def is_list_item (line : Line) : Bool :=
  let stripped := lstrip line
  !stripped.isEmpty &&
    ((match stripped with
      | c :: _ => c == '*' || c == '-' || c == '+'
      | [] => false) || matchNumDot stripped)

/-- Embedding of WordDocumentParser._get_indent_level. -/
def get_indent_level (line : Line) : Nat := line.length - (lstrip line).length

/-- First-seen deduplication: the key list, in insertion order, of a Python dict
fed by repeated conditional insertion. -/
def dedupFS : List Nat → List Nat
  | [] => []
  | x :: xs => x :: (dedupFS xs).filter (fun y => y != x)

/-- First pass of _process_list_block: the indent_to_level dict, modelled as the
list of distinct list-item indent widths in insertion (first-seen) order.  The
level assigned to a width is its index in this list. -/
def collect_loop (acc : List Nat) : List Line → List Nat
  | [] => acc
  | l :: ls =>
    if is_list_item l then
      let w := get_indent_level l
      if acc.contains w then collect_loop acc ls else collect_loop (acc ++ [w]) ls
    else collect_loop acc ls

def collect_widths (lines : List Line) : List Nat := collect_loop [] lines

/-- Index of a width in the first-seen list: the level the dict assigned to it. -/
def idxOf : List Nat → Nat → Nat
  | [], _ => 0
  | x :: xs, w => if x = w then 0 else idxOf xs w + 1

def insertNat (x : Nat) : List Nat → List Nat
  | [] => [x]
  | y :: ys => if x ≤ y then x :: y :: ys else y :: insertNat x ys

/-- Embedding of sorted() applied to the distinct width list. -/
def sortNat : List Nat → List Nat
  | [] => []
  | x :: xs => insertNat x (sortNat xs)

def distN (a b : Nat) : Nat := (a - b) + (b - a)

/-- Embedding of min(indent_levels, key=lambda x: abs(x - indent)): the first
element attaining the minimal absolute distance; none on an empty list, where
Python min raises ValueError. -/
def argminAbs (xs : List Nat) (w : Nat) : Option Nat :=
  match xs with
  | [] => none
  | x :: rest => some (rest.foldl (fun best y => if distN y w < distN best w then y else best) x)

def markerChar (c : Char) : Bool := c == '*' || c == '-' || c == '+'

/-- Content of a list item as computed by the second pass of _process_list_block:
lstrip the bullet marker characters then whitespace, except that a line matching
the numeric pattern instead has its digits-dot-spaces run removed. -/
def item_content (stripped : Line) : Line :=
  if matchNumDot stripped then subNumDot stripped
  else (stripped.dropWhile markerChar).dropWhile isPySpace

def spaces (n : Nat) : Line := List.replicate n ' '

def cm_list_block : Line := chars "<!-- Type: List Block -->"

def traverseO (f : α → Option β) : List α → Option (List β)
  | [] => some []
  | x :: xs => do
    let y ← f x
    let ys ← traverseO f xs
    pure (y :: ys)

/-- Second-pass body of _process_list_block for one line. -/
def plb_line (sortedW W : List Nat) (line : Line) : Option Line :=
  let stripped := lstrip line
  if stripped.isEmpty then some line
  else
    match argminAbs sortedW (get_indent_level line) with
    | none => none
    | some closest =>
      let level := idxOf W closest
      if is_list_item line then
        some (spaces (2 * level) ++ '*' :: ' ' :: item_content stripped)
      else
        some (spaces (2 * (level + 1)) ++ stripped)

/-- Embedding of WordDocumentParser._process_list_block; the none result models
the ValueError raised by min() when the block holds no list item but does hold a
non-blank line. -/
def process_list_block (lines : List Line) : Option (List Line) :=
  if lines.isEmpty then some []
  else
    let W := collect_widths lines
    (traverseO (plb_line (sortNat W) W) lines).map (· ++ [cm_list_block])

def digitChar (d : Nat) : Char := Char.ofNat (48 + d)

/-- Decimal digits of a natural number, fuel-driven so that the recursion stays
structural; models str(level) inside the heading comment. -/
def natToCharsAux : Nat → Nat → List Char
  | 0, _ => []
  | fuel + 1, n =>
    if n < 10 then [digitChar n]
    else natToCharsAux fuel (n / 10) ++ [digitChar (n % 10)]

def natToChars (n : Nat) : List Char := natToCharsAux (n + 1) n

/-- Embedding of HEADING_PATTERN: one or more # at the very start of the line,
followed by a whitespace character. -/
def headingMatch (l : Line) : Bool :=
  let hs := l.takeWhile (fun c => c == '#')
  !hs.isEmpty &&
    (match (l.drop hs.length).head? with
     | some c => isPySpace c
     | none => false)

/-- Length of line.split()[0], the first whitespace-delimited token. -/
def firstTokenLen (l : Line) : Nat :=
  ((lstrip l).takeWhile (fun c => !isPySpace c)).length

def heading_comment (n : Nat) : Line :=
  chars "<!-- Type: Heading " ++ natToChars n ++ chars " -->"

def cm_table : Line := chars "<!-- Type: Table -->"

def cm_image : Line := chars "<!-- Type: Image -->"

def cm_text_body : Line := chars "<!-- Type: Text Body -->"

/-- Python test line.strip().startswith(pipe). -/
def stripStartsPipe (l : Line) : Bool :=
  match strip l with
  | c :: _ => c == '|'
  | [] => false

/-- Embedding of WordDocumentParser._add_metadata with in_list = False, the only
way the pipeline calls it; returns the emitted lines together with the
classification tag of the second tuple component. -/
def add_metadata (line0 : Line) : List Line × Option Line :=
  let line := rstrip line0
  if line.isEmpty then ([line], none)
  else if headingMatch line then
    let n := firstTokenLen line
    ([line, heading_comment n], some (chars "heading_" ++ natToChars n))
  else if is_list_item line then ([line], some (chars "list_item"))
  else if stripStartsPipe line && containsSub line (chars "-|-") then
    ([line, cm_table], some (chars "table_separator"))
  else if stripStartsPipe line then ([line], some (chars "table_row"))
  else if containsSub line (chars "![") && containsSub line (chars "](") then
    ([line, cm_image], some (chars "image"))
  else if !(strip line).isEmpty then ([line, cm_text_body], some (chars "text"))
  else ([line], none)

/-- Embedding of WordDocumentParser._process_nested_lists.  The in_list flag of
the source always equals the nonemptiness of list_block (the flag is set exactly
when the first line of a block is appended and cleared exactly when the block is
flushed), so the loop state is the block accumulator alone; the branch flushing
a nonempty block while not in_list is unreachable and omitted. -/
def pnl_aux : List Line → List Line → Option (List Line)
  | [], block => if block.isEmpty then some [] else process_list_block block
  | l :: ls, block =>
    if is_list_item l then pnl_aux ls (block ++ [l])
    else if !block.isEmpty then
      if !(lstrip l).isEmpty then pnl_aux ls (block ++ [l])
      else do
        let pb ← process_list_block block
        let rest ← pnl_aux ls []
        pure (pb ++ l :: rest)
    else do
      let rest ← pnl_aux ls []
      pure ((add_metadata l).1 ++ rest)

def process_nested_lists (lines : List Line) : Option (List Line) :=
  pnl_aux lines []

def meta_marker : Line := chars "<!-- Type:"

/-- One iteration of the table-grouping loop of convert_to_markdown; the state is
(markdown_lines, current_table, in_table). -/
def table_step (st : List Line × List Line × Bool) (l : Line) :
    List Line × List Line × Bool :=
  let (out, ct, it) := st
  if containsSub l meta_marker then (out ++ [l], ct, it)
  else if stripStartsPipe l then
    if it then (out, ct ++ [l], true) else (out, [l], true)
  else if it then (out ++ ct ++ [[], l], [], false)
  else (out ++ [l], ct, it)

/-- Embedding of the table-grouping pass of convert_to_markdown (the loop over
processed_lines plus the final flush of a pending table buffer). -/
def table_pass (ls : List Line) : List Line :=
  match ls.foldl table_step ([], [], false) with
  | (out, ct, _) => if ct.isEmpty then out else out ++ ct ++ [[]]

/-- The line pipeline of convert_to_markdown: list processing, then metadata and
table grouping; the none result propagates the only possible failure, the
ValueError inside _process_list_block. -/
def convert_lines (lines : List Line) : Option (List Line) :=
  (process_nested_lists lines).map table_pass

/-- Token-level model of the document text relative to IMAGE_PATTERN: a piece is
either one maximal substring matching the data-image placeholder pattern, or
surrounding text containing no match.  A rewritten image tag has no data-image
target, hence is a text piece. -/
inductive Piece
  | ph (alt : Line)
  | txt (s : Line)
deriving DecidableEq

def image_tag (filename : Line) : Piece :=
  .txt (chars "![Image](images/" ++ filename ++ chars ")")

/-- IMAGE_PATTERN.sub(image_tag, content, 1): replace the first placeholder
occurrence only. -/
def subFirstPh (tag : Piece) : List Piece → List Piece
  | [] => []
  | .ph _ :: rest => tag :: rest
  | .txt s :: rest => .txt s :: subFirstPh tag rest

/-- Embedding of the image-resolution loop of convert_to_markdown: one count-one
substitution per collected image, in image_map insertion order. -/
def resolve_images (imgs : List Line) (content : List Piece) : List Piece :=
  imgs.foldl (fun acc fn => subFirstPh (image_tag fn) acc) content

/-- Modelled from the spec words, for refinement comparison with resolve_images:
the i-th placeholder in document order is replaced by a reference to
images/<filename> of the i-th supplied entry, and excess placeholders are left
unchanged in place. -/
def spec_resolve : List Line → List Piece → List Piece
  | _, [] => []
  | imgs, .txt s :: rest => .txt s :: spec_resolve imgs rest
  | [], .ph a :: rest => .ph a :: spec_resolve [] rest
  | fn :: imgs, .ph _ :: rest => image_tag fn :: spec_resolve imgs rest

/-- Widths of the list-item lines of a block, in order. -/
def item_widths (lines : List Line) : List Nat :=
  (lines.filter is_list_item).map get_indent_level

/-- Rewrite applied by _process_list_block to a list-item line once the closest
width collapses to the own width of the line: two spaces per level, a star, a
space, then the stripped content. -/
def plb_rewrite (W : List Nat) (l : Line) : Line :=
  spaces (2 * idxOf W (get_indent_level l)) ++ '*' :: ' ' :: item_content (lstrip l)

section Helpers

theorem subFirstPh_nil (tag : Piece) : subFirstPh tag [] = [] := rfl

theorem resolve_images_nil (imgs : List Line) : resolve_images imgs [] = [] := by
  induction imgs with
  | nil => rfl
  | cons fn imgs ih => simpa [resolve_images, subFirstPh] using ih

theorem resolve_images_txt (imgs : List Line) (s : Line) (rest : List Piece) :
    resolve_images imgs (.txt s :: rest) = .txt s :: resolve_images imgs rest := by
  induction imgs generalizing rest with
  | nil => rfl
  | cons fn imgs ih => simpa [resolve_images, subFirstPh] using ih (subFirstPh (image_tag fn) rest)

theorem spec_resolve_nil : ∀ c : List Piece, spec_resolve [] c = c
  | [] => rfl
  | .txt s :: rest => by simp [spec_resolve, spec_resolve_nil rest]
  | .ph a :: rest => by simp [spec_resolve, spec_resolve_nil rest]

theorem resolve_eq_spec : ∀ (c : List Piece) (imgs : List Line),
    resolve_images imgs c = spec_resolve imgs c
  | [], imgs => by simp [resolve_images_nil, spec_resolve]
  | .txt s :: rest, imgs => by
      rw [resolve_images_txt]
      simp [spec_resolve, resolve_eq_spec rest imgs]
  | .ph a :: rest, [] => by
      simp [resolve_images, spec_resolve, spec_resolve_nil]
  | .ph a :: rest, fn :: imgs => by
      have h1 : resolve_images (fn :: imgs) (.ph a :: rest) =
          resolve_images imgs (image_tag fn :: rest) := by
        simp [resolve_images, subFirstPh]
      rw [h1]
      show resolve_images imgs (.txt _ :: rest) = _
      rw [resolve_images_txt]
      simp [spec_resolve, image_tag, resolve_eq_spec rest imgs]

end Helpers

/-- C8 counterexample: on the empty input line sequence the pipeline does not
surface any error and does not stop; it succeeds and produces the empty
document, contrary to the claimed MalformedInput behaviour. -/
theorem c8_counterexample : convert_lines [] = some [] := rfl

/-- C8 (amended): if the input line sequence is empty, the pipeline raises no
error at all: list processing yields the empty stream, table grouping leaves it
empty, and image resolution leaves the empty document empty, so the result is an
empty document rather than a surfaced MalformedInput failure. -/
theorem c8_empty_input_amended :
    process_nested_lists [] = some [] ∧ convert_lines [] = some [] ∧
      ∀ imgs : List Line, resolve_images imgs [] = [] :=
  ⟨rfl, rfl, fun imgs => resolve_images_nil imgs⟩

/-- C10: a line containing the metadata-comment marker is appended directly to
the output by the table-grouping pass, leaving the pending table buffer and the
in-table flag untouched, and consequently such a comment line that occurs among
table-row lines appears in the output before the table rows that were buffered
ahead of it. -/
theorem c10_meta_passthrough :
    (∀ (out ct : List Line) (it : Bool) (l : Line),
        containsSub l meta_marker = true →
        table_step (out, ct, it) l = (out ++ [l], ct, it)) ∧
    table_pass [chars "| a |", cm_table, chars "| b |"] =
      [cm_table, chars "| a |", chars "| b |", []] := by
  constructor
  · intro out ct it l h
    simp [table_step, h]
  · decide

/-- Witness for C10 at a concrete state and comment line. -/
theorem c10_meta_passthrough_witness :
    table_step ([], [chars "| a |"], true) cm_table =
      ([cm_table], [chars "| a |"], true) :=
  c10_meta_passthrough.1 [] [chars "| a |"] true cm_table (by decide)

/-- C2: the image-resolution loop (one count-one regex substitution per supplied
image, in order) refines the positional specification: the i-th placeholder in
document order is replaced by the reference to images/<filename> of the i-th
supplied entry, and when placeholders outnumber supplied images every excess
placeholder is left in place unchanged, never dropped and never bound out of
order; the concrete instance shows two placeholders and one image. -/
theorem c2_image_resolution :
    (∀ (imgs : List Line) (c : List Piece), resolve_images imgs c = spec_resolve imgs c) ∧
    resolve_images [chars "f1.png"] [.ph (chars "a"), .txt (chars "m"), .ph (chars "b")] =
      [image_tag (chars "f1.png"), .txt (chars "m"), .ph (chars "b")] := by
  refine ⟨fun imgs c => resolve_eq_spec c imgs, ?_⟩
  decide

/-- C3 counterexample: a line starting with a bullet marker character that is not
followed by whitespace is nevertheless classified as a list item by the code,
contrary to the claim that the marker must be followed by whitespace. -/
theorem c3_counterexample : is_list_item (chars "**bold**") = true := by decide

section ListItemChar

theorem isEmpty_false_iff (l : List α) : l.isEmpty = false ↔ l ≠ [] := by
  cases l <;> simp

theorem drop_length_takeWhile (p : α → Bool) :
    ∀ s : List α, s.drop (s.takeWhile p).length = s.dropWhile p
  | [] => rfl
  | x :: xs => by
    cases h : p x <;>
      simp [List.takeWhile_cons, List.dropWhile_cons, h, drop_length_takeWhile p xs]

theorem takeWhile_append_all {p : α → Bool} {b : α} (hb : p b = false) :
    ∀ {l1 : List α}, (∀ x ∈ l1, p x = true) → ∀ l2, (l1 ++ b :: l2).takeWhile p = l1
  | [], _, l2 => by simp [List.takeWhile_cons, hb]
  | x :: xs, h, l2 => by
    have hx := h x (List.mem_cons_self x xs)
    simp only [List.cons_append, List.takeWhile_cons, hx, if_true]
    rw [takeWhile_append_all hb (fun y hy => h y (List.mem_cons_of_mem _ hy)) l2]

theorem dropWhile_append_all {p : α → Bool} {b : α} (hb : p b = false) :
    ∀ {l1 : List α}, (∀ x ∈ l1, p x = true) → ∀ l2, (l1 ++ b :: l2).dropWhile p = b :: l2
  | [], _, l2 => by simp [List.dropWhile_cons, hb]
  | x :: xs, h, l2 => by
    have hx := h x (List.mem_cons_self x xs)
    simp only [List.cons_append, List.dropWhile_cons, hx, if_true]
    exact dropWhile_append_all hb (fun y hy => h y (List.mem_cons_of_mem _ hy)) l2

/-- Characterization of the numeric branch of the classifier. -/
theorem matchNumDot_iff (s : Line) :
    matchNumDot s = true ↔
      ∃ ds rest, s = ds ++ '.' :: rest ∧ ds ≠ [] ∧ ∀ c ∈ ds, c.isDigit = true := by
  constructor
  · intro h
    simp only [matchNumDot, Bool.and_eq_true, Bool.not_eq_true', beq_iff_eq] at h
    obtain ⟨hne, hdot⟩ := h
    rw [drop_length_takeWhile] at hdot
    cases hd : s.dropWhile Char.isDigit with
    | nil => rw [hd] at hdot; simp at hdot
    | cons a t =>
      rw [hd] at hdot
      simp only [List.head?_cons, Option.some.injEq] at hdot
      subst hdot
      refine ⟨s.takeWhile Char.isDigit, t, ?_, ?_, ?_⟩
      · conv_lhs => rw [← List.takeWhile_append_dropWhile Char.isDigit s]
        rw [hd]
      · intro hcon
        rw [hcon] at hne
        simp at hne
      · intro c hc
        exact List.mem_takeWhile_imp hc
  · rintro ⟨ds, rest, hs, hne, hdig⟩
    have htake : s.takeWhile Char.isDigit = ds := by
      rw [hs]
      exact takeWhile_append_all (by decide) hdig rest
    have hdrop : s.dropWhile Char.isDigit = '.' :: rest := by
      rw [hs]
      exact dropWhile_append_all (by decide) hdig rest
    simp only [matchNumDot, Bool.and_eq_true, Bool.not_eq_true', beq_iff_eq]
    constructor
    · rw [htake, isEmpty_false_iff]; exact hne
    · rw [drop_length_takeWhile, hdrop]
      rfl

end ListItemChar

/-- C3 (amended): the classifier assigns ListItem exactly when the first
non-whitespace character of the line is one of the bullet markers, or when the
stripped line starts with one or more digits immediately followed by a dot; no
whitespace after the marker token is required, so a line beginning with a double
star is classified as a list item, and so is a digits-dot prefix inside a word
such as a decimal number. -/
theorem c3_list_item_amended :
    (∀ l : Line,
      is_list_item l = true ↔
        lstrip l ≠ [] ∧
          ((∃ c rest, lstrip l = c :: rest ∧ (c = '*' ∨ c = '-' ∨ c = '+')) ∨
           ∃ ds rest, lstrip l = ds ++ '.' :: rest ∧ ds ≠ [] ∧ ∀ c ∈ ds, c.isDigit = true)) ∧
    is_list_item (chars "**bold**") = true ∧
    is_list_item (chars "1.5 million") = true := by
  refine ⟨?_, by decide, by decide⟩
  intro l
  simp only [is_list_item, Bool.and_eq_true, Bool.not_eq_true', isEmpty_false_iff,
    Bool.or_eq_true]
  constructor
  · rintro ⟨hne, hcase⟩
    refine ⟨hne, ?_⟩
    rcases hcase with hhead | hnum
    · left
      cases hl : lstrip l with
      | nil => rw [hl] at hhead; simp at hhead
      | cons c rest =>
        rw [hl] at hhead
        simp only [Bool.or_eq_true, beq_iff_eq] at hhead
        exact ⟨c, rest, rfl, or_assoc.mp hhead⟩
    · right
      exact (matchNumDot_iff (lstrip l)).mp hnum
  · rintro ⟨hne, hcase⟩
    refine ⟨hne, ?_⟩
    rcases hcase with ⟨c, rest, hl, hc⟩ | hnum
    · left
      rw [hl]
      simp only [Bool.or_eq_true, beq_iff_eq]
      exact or_assoc.mpr hc
    · right
      exact (matchNumDot_iff (lstrip l)).mpr hnum

/-- Witness for C3 applying the amended characterization to a concrete dash item. -/
theorem c3_list_item_amended_witness : is_list_item (chars "- x") = true :=
  (c3_list_item_amended.1 (chars "- x")).mpr
    ⟨by decide, Or.inl ⟨'-', chars " x", by decide, Or.inr (Or.inl rfl)⟩⟩

/-- C4 counterexample: the line of dashes separated from the pipes by spaces
matches the claimed dashes-or-colons-between-pipes shape, yet the pipeline
classifies it as a plain table row and emits no Table comment at all, because
the code tests for the literal dash-pipe-dash substring. -/
theorem c4_counterexample :
    convert_lines [chars "| --- | --- |"] = some [chars "| --- | --- |", []] := by
  decide

/-- C4 (amended): a trimmed line starting with a pipe is classified as a table
separator exactly when it contains the literal dash-pipe-dash substring, in
which case the annotator emits the Table comment immediately after the line in
its own output; in the final document, however, the grouping pass buffers the
separator row while passing the comment straight through, so the comment appears
immediately before the table block that contains the separator line. -/
theorem c4_table_separator_amended :
    (∀ l : Line, rstrip l ≠ [] → headingMatch (rstrip l) = false →
      is_list_item (rstrip l) = false → stripStartsPipe (rstrip l) = true →
      containsSub (rstrip l) (chars "-|-") = true →
      add_metadata l = ([rstrip l, cm_table], some (chars "table_separator"))) ∧
    convert_lines [chars "|---|---|"] = some [cm_table, chars "|---|---|", []] := by
  constructor
  · intro l hne hh hli hp hd
    have hemp : (rstrip l).isEmpty = false := (isEmpty_false_iff (rstrip l)).mpr hne
    simp [add_metadata, hemp, hh, hli, hp, hd]
  · decide

/-- Witness for C4 applying the amended classification at a concrete separator line. -/
theorem c4_table_separator_amended_witness :
    add_metadata (chars "|---|---|") =
      ([chars "|---|---|", cm_table], some (chars "table_separator")) :=
  c4_table_separator_amended.1 (chars "|---|---|") (by decide) (by decide) (by decide)
    (by decide) (by decide)

section Segmentation

theorem is_list_item_of_blank {l : Line} (h : lstrip l = []) : is_list_item l = false := by
  simp [is_list_item, h]

theorem pnl_aux_nil (block : List Line) :
    pnl_aux [] block = if block.isEmpty then some [] else process_list_block block := rfl

/-- While scanning a run of list-item lines, the segmentation loop only grows the
current block. -/
theorem pnl_aux_items : ∀ (A : List Line), (∀ l ∈ A, is_list_item l = true) →
    ∀ (rest block : List Line), pnl_aux (A ++ rest) block = pnl_aux rest (block ++ A) := by
  intro A
  induction A with
  | nil => intro _ rest block; simp
  | cons a A ih =>
    intro h rest block
    have ha := h a (List.mem_cons_self a A)
    have hA := fun l hl => h l (List.mem_cons_of_mem a hl)
    simp only [List.cons_append]
    simp only [pnl_aux, ha, if_true]
    rw [ih hA rest (block ++ [a])]
    simp

end Segmentation

/-- C6 counterexample: a blank line between two list items splits them into two
separate list blocks, each with its own trailing comment, refuting the claim
that list items after a blank line stay in the same block. -/
theorem c6_counterexample :
    process_nested_lists [chars "* a", [], chars "* b"] =
      some [chars "* a", cm_list_block, [], chars "* b", cm_list_block] := by
  decide

/-- C6 (amended): block segmentation terminates a ListBlock at any blank line
(or at end of input) regardless of what follows; a run of list items, a blank
line, and a further run of list items are processed as two independent
ListBlocks, each normalized separately and each receiving its own trailing
comment, with the blank line emitted between them. -/
theorem c6_blank_terminates_amended :
    ∀ (A : List Line) (bl : Line) (B : List Line),
      A ≠ [] → (∀ l ∈ A, is_list_item l = true) → lstrip bl = [] →
      B ≠ [] → (∀ l ∈ B, is_list_item l = true) →
      process_nested_lists (A ++ bl :: B) =
        (process_list_block A).bind fun x =>
          (process_list_block B).map fun y => x ++ bl :: y := by
  intro A bl B hA hAi hbl hB hBi
  have hbli : is_list_item bl = false := is_list_item_of_blank hbl
  have hAe : A.isEmpty = false := (isEmpty_false_iff A).mpr hA
  have hble : (lstrip bl).isEmpty = true := by rw [hbl]; rfl
  have hBend : pnl_aux B [] = process_list_block B := by
    have h2 := pnl_aux_items B hBi [] []
    simp only [List.append_nil, List.nil_append] at h2
    rw [h2, pnl_aux_nil]
    simp [(isEmpty_false_iff B).mpr hB]
  unfold process_nested_lists
  rw [pnl_aux_items A hAi (bl :: B) []]
  simp only [List.nil_append]
  simp only [pnl_aux, hbli, hAe, hble, Bool.not_false, Bool.not_true, if_false, if_true]
  rw [hBend]
  cases process_list_block A <;> cases process_list_block B <;> simp

/-- Witness for C6 applying the amended statement to two one-item runs around a
blank line. -/
theorem c6_blank_terminates_amended_witness :
    process_nested_lists ([chars "* a"] ++ ([] : Line) :: [chars "* b"]) =
      (process_list_block [chars "* a"]).bind fun x =>
        (process_list_block [chars "* b"]).map fun y => x ++ ([] : Line) :: y :=
  c6_blank_terminates_amended [chars "* a"] [] [chars "* b"] (by decide) (by decide)
    (by decide) (by decide) (by decide)

section TableGrouping

theorem table_step_pre (pre out ct : List Line) (it : Bool) (l : Line) :
    table_step (pre ++ out, ct, it) l =
      ((pre ++ (table_step (out, ct, it) l).1,
        (table_step (out, ct, it) l).2.1, (table_step (out, ct, it) l).2.2)) := by
  simp only [table_step]
  split_ifs <;> simp

theorem foldl_table_pre : ∀ (ls : List Line) (pre out ct : List Line) (it : Bool),
    List.foldl table_step (pre ++ out, ct, it) ls =
      ((pre ++ (List.foldl table_step (out, ct, it) ls).1,
        (List.foldl table_step (out, ct, it) ls).2.1,
        (List.foldl table_step (out, ct, it) ls).2.2)) := by
  intro ls
  induction ls with
  | nil => intro pre out ct it; simp
  | cons l ls ih =>
    intro pre out ct it
    simp only [List.foldl_cons]
    rw [table_step_pre]
    rw [ih]

theorem foldl_nonpipe : ∀ (A : List Line), (∀ l ∈ A, stripStartsPipe l = false) →
    ∀ out, List.foldl table_step (out, [], false) A = (out ++ A, [], false) := by
  intro A
  induction A with
  | nil => intro _ out; simp
  | cons a A ih =>
    intro h out
    have ha := h a (List.mem_cons_self a A)
    have hstep : table_step (out, [], false) a = (out ++ [a], [], false) := by
      simp only [table_step]
      cases hm : containsSub a meta_marker <;> simp [ha, hm]
    simp only [List.foldl_cons, hstep]
    rw [ih (fun l hl => h l (List.mem_cons_of_mem a hl)) (out ++ [a])]
    simp

theorem foldl_pipes : ∀ (T : List Line),
    (∀ l ∈ T, stripStartsPipe l = true ∧ containsSub l meta_marker = false) →
    ∀ out ct, List.foldl table_step (out, ct, true) T = (out, ct ++ T, true) := by
  intro T
  induction T with
  | nil => intro _ out ct; simp
  | cons t T ih =>
    intro h out ct
    have ht := h t (List.mem_cons_self t T)
    have hstep : table_step (out, ct, true) t = (out, ct ++ [t], true) := by
      simp [table_step, ht.1, ht.2]
    simp only [List.foldl_cons, hstep]
    rw [ih (fun l hl => h l (List.mem_cons_of_mem t hl)) out (ct ++ [t])]
    simp

theorem foldl_enter_pipes (T : List Line) (hne : T ≠ [])
    (h : ∀ l ∈ T, stripStartsPipe l = true ∧ containsSub l meta_marker = false)
    (out : List Line) : List.foldl table_step (out, [], false) T = (out, T, true) := by
  cases T with
  | nil => exact absurd rfl hne
  | cons t T =>
    have ht := h t (List.mem_cons_self t T)
    have hstep : table_step (out, [], false) t = (out, [t], true) := by
      simp [table_step, ht.1, ht.2]
    simp only [List.foldl_cons, hstep]
    rw [foldl_pipes T (fun l hl => h l (List.mem_cons_of_mem t hl)) out [t]]
    simp

end TableGrouping

/-- C7 counterexample: a one-line table terminated by a blank input line is
followed in the final output by two blank lines, not exactly one: the grouping
pass inserts its own blank line after flushing the buffer and then also emits
the terminating blank line. -/
theorem c7_counterexample :
    convert_lines [chars "| a |", [], chars "x"] =
      some [chars "| a |", [], [], chars "x", cm_text_body] := by
  decide

/-- C7 (amended): for a stream in which a nonempty maximal run of pipe-prefixed
lines carries no metadata-comment marker, the grouping pass emits the run
unchanged and in order, immediately followed by exactly one inserted blank line;
when the line terminating the run is itself non-pipe and carries no marker, the
rest of the stream is grouped independently after that blank line, and the first
line following the inserted blank is exactly the terminating line, so the run is
followed by exactly one blank line whenever the terminating line is non-blank
(a blank terminating line instead yields a second blank, and a marker line
would be passed through without flushing the run). -/
theorem c7_table_block_amended :
    (∀ (A T B : List Line),
      (∀ l ∈ A, stripStartsPipe l = false) →
      T ≠ [] → (∀ l ∈ T, stripStartsPipe l = true ∧ containsSub l meta_marker = false) →
      (B = [] ∨ (stripStartsPipe B.headI = false ∧ containsSub B.headI meta_marker = false)) →
      table_pass (A ++ T ++ B) = A ++ T ++ ([] : Line) :: table_pass B) ∧
    (∀ (b : Line) (bs : List Line), stripStartsPipe b = false →
      containsSub b meta_marker = false → (table_pass (b :: bs)).headI = b) := by
  constructor
  · intro A T B hA hTne hT hB
    unfold table_pass
    have h1 : List.foldl table_step ([], [], false) A = (A, [], false) := by
      simpa using foldl_nonpipe A hA []
    rw [List.foldl_append, List.foldl_append, h1, foldl_enter_pipes T hTne hT A]
    cases B with
    | nil =>
      simp [(isEmpty_false_iff T).mpr hTne]
    | cons b bs =>
      rcases hB with hB | hB
      · exact absurd hB (List.cons_ne_nil b bs)
      have hb1 : stripStartsPipe b = false := hB.1
      have hb2 : containsSub b meta_marker = false := hB.2
      have hstep : table_step (A, T, true) b = (A ++ T ++ [([] : Line), b], [], false) := by
        simp [table_step, hb1, hb2]
      have hstep0 : table_step (([] : List Line), [], false) b = ([b], [], false) := by
        simp [table_step, hb1, hb2]
      simp only [List.foldl_cons, hstep, hstep0]
      have hsplit : A ++ T ++ [([] : Line), b] = (A ++ T ++ [([] : Line)]) ++ [b] := by
        simp
      rw [hsplit, foldl_table_pre bs (A ++ T ++ [([] : Line)]) [b] [] false]
      cases hct : (List.foldl table_step ([b], [], false) bs).2.1 with
      | nil => simp [hct]
      | cons c cs => simp [hct]
  · intro b bs hb1 hb2
    unfold table_pass
    have hstep0 : table_step (([] : List Line), [], false) b = ([b], [], false) := by
      simp [table_step, hb1, hb2]
    simp only [List.foldl_cons, hstep0]
    have hpre : ([b] : List Line) = [b] ++ ([] : List Line) := by simp
    rw [hpre, foldl_table_pre bs [b] [] [] false]
    cases hct : (List.foldl table_step (([] : List Line), [], false) bs).2.1 with
    | nil => simp [hct]
    | cons c cs => simp [hct]

/-- Witness for C7 applying the amended grouping statement to a concrete stream
with one leading text line, a one-row table and a trailing text line. -/
theorem c7_table_block_amended_witness :
    table_pass ([chars "x"] ++ [chars "| a |"] ++ [chars "y"]) =
      [chars "x"] ++ [chars "| a |"] ++ ([] : Line) :: table_pass [chars "y"] :=
  c7_table_block_amended.1 [chars "x"] [chars "| a |"] [chars "y"] (by decide) (by decide)
    (by decide) (Or.inr (by decide))

section SegmentationSafety

theorem collect_loop_acc_ne : ∀ (ls : List Line) (acc : List Nat),
    acc ≠ [] → collect_loop acc ls ≠ [] := by
  intro ls
  induction ls with
  | nil => intro acc h; exact h
  | cons l ls ih =>
    intro acc h
    simp only [collect_loop]
    split_ifs with h1 h2
    · exact ih acc h
    · exact ih _ (by simp)
    · exact ih acc h

theorem collect_widths_head_item (h : Line) (t : List Line) (hi : is_list_item h = true) :
    collect_widths (h :: t) ≠ [] := by
  unfold collect_widths
  simp only [collect_loop, hi, if_true]
  have hcon : ([] : List Nat).contains (get_indent_level h) = false := rfl
  rw [hcon]
  simp only [Bool.false_eq_true, if_false, List.nil_append]
  exact collect_loop_acc_ne t [get_indent_level h] (by simp)

theorem insertNat_ne_nil (x : Nat) : ∀ (l : List Nat), insertNat x l ≠ [] := by
  intro l
  cases l with
  | nil => simp [insertNat]
  | cons y ys =>
    simp only [insertNat]
    split_ifs <;> simp

theorem sortNat_ne : ∀ (l : List Nat), l ≠ [] → sortNat l ≠ [] := by
  intro l h
  cases l with
  | nil => exact absurd rfl h
  | cons x xs => exact insertNat_ne_nil x (sortNat xs)

theorem argminAbs_isSome (xs : List Nat) (h : xs ≠ []) (w : Nat) :
    (argminAbs xs w).isSome = true := by
  cases xs with
  | nil => exact absurd rfl h
  | cons x rest => rfl

theorem plb_line_isSome (sortedW W : List Nat) (h : sortedW ≠ []) (l : Line) :
    (plb_line sortedW W l).isSome = true := by
  simp only [plb_line]
  cases he : (lstrip l).isEmpty with
  | true => simp [he]
  | false =>
    simp only [he, Bool.false_eq_true, if_false]
    cases hm : argminAbs sortedW (get_indent_level l) with
    | none =>
      have hsome := argminAbs_isSome sortedW h (get_indent_level l)
      rw [hm] at hsome
      simp at hsome
    | some c => split_ifs <;> rfl

theorem traverseO_isSome {f : α → Option β} : ∀ {xs : List α},
    (∀ x ∈ xs, (f x).isSome = true) → (traverseO f xs).isSome = true := by
  intro xs
  induction xs with
  | nil => intro _; rfl
  | cons x xs ih =>
    intro h
    obtain ⟨y, hy⟩ := Option.isSome_iff_exists.mp (h x (List.mem_cons_self x xs))
    obtain ⟨ys, hys⟩ :=
      Option.isSome_iff_exists.mp (ih (fun a ha => h a (List.mem_cons_of_mem x ha)))
    simp [traverseO, hy, hys]

theorem good_plb {b : List Line} (hne : b ≠ []) (hh : is_list_item b.headI = true) :
    (process_list_block b).isSome = true := by
  cases b with
  | nil => exact absurd rfl hne
  | cons h t =>
    have hW : collect_widths (h :: t) ≠ [] :=
      collect_widths_head_item h t (by simpa using hh)
    have hs : sortNat (collect_widths (h :: t)) ≠ [] := sortNat_ne _ hW
    simp only [process_list_block, List.isEmpty_cons, Bool.false_eq_true, if_false]
    rw [Option.isSome_map']
    exact traverseO_isSome (fun x _ => plb_line_isSome _ _ hs x)

theorem pnl_aux_isSome : ∀ (ls block : List Line),
    (block = [] ∨ is_list_item block.headI = true) → (pnl_aux ls block).isSome = true := by
  intro ls
  induction ls with
  | nil =>
    intro block hb
    rw [pnl_aux_nil]
    cases hE : block.isEmpty with
    | true => simp [hE]
    | false =>
      have hbne : block ≠ [] := (isEmpty_false_iff block).mp hE
      rcases hb with h | h
      · exact absurd h hbne
      · simp only [hE, Bool.false_eq_true, if_false]
        exact good_plb hbne h
  | cons l ls ih =>
    intro block hb
    simp only [pnl_aux]
    cases hi : is_list_item l with
    | true =>
      simp only [hi, if_true]
      apply ih
      right
      cases block with
      | nil => simpa using hi
      | cons b bs =>
        have hhd : is_list_item (b :: bs).headI = true := by
          rcases hb with h | h
          · exact absurd h (List.cons_ne_nil b bs)
          · exact h
        simpa using hhd
    | false =>
      simp only [hi, Bool.false_eq_true, if_false]
      cases hbe : block.isEmpty with
      | false =>
        have hbne := (isEmpty_false_iff block).mp hbe
        have hhd : is_list_item block.headI = true := by
          rcases hb with h | h
          · exact absurd h hbne
          · exact h
        simp only [hbe, Bool.not_false, if_true]
        cases hse : (lstrip l).isEmpty with
        | false =>
          simp only [hse, Bool.not_false, if_true]
          apply ih
          right
          cases block with
          | nil => exact absurd rfl hbne
          | cons b bs => simpa using hhd
        | true =>
          simp only [hse, Bool.not_true, Bool.false_eq_true, if_false]
          obtain ⟨pb, hpb⟩ := Option.isSome_iff_exists.mp (good_plb hbne hhd)
          obtain ⟨r, hr⟩ := Option.isSome_iff_exists.mp (ih [] (Or.inl rfl))
          simp [hpb, hr]
      | true =>
        simp only [hbe, Bool.not_true, Bool.false_eq_true, if_false]
        obtain ⟨r, hr⟩ := Option.isSome_iff_exists.mp (ih [] (Or.inl rfl))
        simp [hr]

end SegmentationSafety

/-- C9: every block the segmentation step hands to the list normalizer is
nonempty with a list item as its first line (the loop opens a block only on a
list item and flushes it before the flag is cleared), under which precondition
the set of observed list-item widths is nonempty and the closest-width minimum
is always defined, so the normalizer never hits its zero-list-item failure and
the whole segmentation pass always returns a result. -/
theorem c9_segmentation_safe :
    (∀ b : List Line, b ≠ [] → is_list_item b.headI = true →
      (process_list_block b).isSome = true) ∧
    ∀ lines : List Line, (process_nested_lists lines).isSome = true := by
  constructor
  · intro b h1 h2
    exact good_plb h1 h2
  · intro lines
    exact pnl_aux_isSome lines [] (Or.inl rfl)

/-- Witness for C9 at a concrete one-item block and a concrete mixed input. -/
theorem c9_segmentation_safe_witness :
    (process_list_block [chars "* a"]).isSome = true ∧
      (process_nested_lists [chars "x", chars "* a"]).isSome = true :=
  ⟨c9_segmentation_safe.1 [chars "* a"] (by decide) (by decide),
   c9_segmentation_safe.2 [chars "x", chars "* a"]⟩

section Normalization

theorem contains_iff_memN (l : List Nat) (a : Nat) : l.contains a = true ↔ a ∈ l := by
  simp

theorem lstrip_ne_of_item {l : Line} (h : is_list_item l = true) :
    (lstrip l).isEmpty = false := by
  simp only [is_list_item, Bool.and_eq_true, Bool.not_eq_true'] at h
  exact h.1

theorem traverseO_some {f : α → Option β} : ∀ {xs : List α} {ys : List β},
    traverseO f xs = some ys →
      ys.length = xs.length ∧ ∀ (i : Nat) (h : i < xs.length), ys.get? i = f (xs.get ⟨i, h⟩) := by
  intro xs
  induction xs with
  | nil =>
    intro ys h
    simp only [traverseO, Option.some.injEq] at h
    subst h
    exact ⟨rfl, fun i hi => absurd hi (by simp)⟩
  | cons x xs ih =>
    intro ys h
    simp only [traverseO, Option.bind_eq_bind] at h
    cases hfx : f x with
    | none => rw [hfx] at h; simp at h
    | some y =>
      rw [hfx] at h
      cases ht : traverseO f xs with
      | none => rw [ht] at h; simp at h
      | some ys0 =>
        rw [ht] at h
        simp only [Option.some_bind, Option.pure_def, Option.some.injEq] at h
        subst h
        obtain ⟨hlen, hget⟩ := ih ht
        refine ⟨by simp [hlen], ?_⟩
        intro i hi
        cases i with
        | zero => simpa using hfx.symm
        | succ j =>
          have hj : j < xs.length := by simpa using hi
          simpa using hget j hj

theorem distN_self (w : Nat) : distN w w = 0 := by simp [distN]

theorem distN_eq_zero_iff (a b : Nat) : distN a b = 0 ↔ a = b := by
  unfold distN
  omega

theorem argmin_foldl_self (w : Nat) : ∀ (ys : List Nat) (b : Nat), (b = w ∨ w ∈ ys) →
    ys.foldl (fun best y => if distN y w < distN best w then y else best) b = w := by
  intro ys
  induction ys with
  | nil =>
    intro b h
    rcases h with h | h
    · exact h
    · simp at h
  | cons y ys ih =>
    intro b h
    simp only [List.foldl_cons]
    apply ih
    rcases h with h | h
    · subst h
      left
      rw [if_neg]
      rw [distN_self]
      exact Nat.not_lt_zero _
    · rcases List.mem_cons.mp h with h | h
      · subst h
        left
        by_cases hbw : b = w
        · subst hbw; simp
        · have hpos : 0 < distN b w := by
            rcases Nat.eq_zero_or_pos (distN b w) with h0 | h0
            · exact absurd ((distN_eq_zero_iff b w).mp h0) hbw
            · exact h0
          rw [distN_self, if_pos hpos]
      · right; exact h

theorem argminAbs_self {xs : List Nat} {w : Nat} (h : w ∈ xs) : argminAbs xs w = some w := by
  cases xs with
  | nil => simp at h
  | cons x rest =>
    simp only [argminAbs, Option.some.injEq]
    apply argmin_foldl_self
    rcases List.mem_cons.mp h with h | h
    · left; exact h.symm
    · right; exact h

theorem mem_insertNat (a x : Nat) : ∀ (l : List Nat), a ∈ insertNat x l ↔ a = x ∨ a ∈ l := by
  intro l
  induction l with
  | nil => simp [insertNat]
  | cons y ys ih =>
    simp only [insertNat]
    split_ifs with h
    · simp [List.mem_cons]
    · simp only [List.mem_cons, ih]
      tauto

theorem mem_sortNat (a : Nat) : ∀ (l : List Nat), a ∈ sortNat l ↔ a ∈ l := by
  intro l
  induction l with
  | nil => simp [sortNat]
  | cons x xs ih =>
    simp only [sortNat, mem_insertNat, List.mem_cons, ih]

theorem mem_collect_loop : ∀ (ls : List Line) (acc : List Nat) (w : Nat),
    w ∈ collect_loop acc ls ↔
      w ∈ acc ∨ ∃ l ∈ ls, is_list_item l = true ∧ get_indent_level l = w := by
  intro ls
  induction ls with
  | nil => intro acc w; simp [collect_loop]
  | cons l ls ih =>
    intro acc w
    simp only [collect_loop]
    split_ifs with h1 h2
    · have hmem : get_indent_level l ∈ acc := (contains_iff_memN acc _).mp h2
      rw [ih, List.exists_mem_cons_iff]
      constructor
      · rintro (h | h)
        · exact Or.inl h
        · exact Or.inr (Or.inr h)
      · rintro (h | ⟨⟨_, hw⟩ | h⟩)
        · exact Or.inl h
        · subst hw; exact Or.inl hmem
        · exact Or.inr h
    · rw [ih, List.exists_mem_cons_iff]
      simp only [List.mem_append, List.mem_singleton, h1, true_and]
      constructor
      · rintro ((h | h) | h)
        · exact Or.inl h
        · exact Or.inr (Or.inl h.symm)
        · exact Or.inr (Or.inr h)
      · rintro (h | (h | h))
        · exact Or.inl (Or.inl h)
        · exact Or.inl (Or.inr h.symm)
        · exact Or.inr h
    · rw [ih, List.exists_mem_cons_iff]
      simp [h1]

theorem mem_collect_widths (lines : List Line) (w : Nat) :
    w ∈ collect_widths lines ↔
      ∃ l ∈ lines, is_list_item l = true ∧ get_indent_level l = w := by
  rw [collect_widths, mem_collect_loop]
  simp

theorem nodup_collect_loop : ∀ (ls : List Line) (acc : List Nat),
    acc.Nodup → (collect_loop acc ls).Nodup := by
  intro ls
  induction ls with
  | nil => intro acc h; exact h
  | cons l ls ih =>
    intro acc h
    simp only [collect_loop]
    cases hi : is_list_item l with
    | false => exact ih acc h
    | true =>
      simp only [hi, if_true]
      cases hc : acc.contains (get_indent_level l) with
      | true => exact ih acc h
      | false =>
        apply ih
        have hnm : get_indent_level l ∉ acc := by
          intro hmem
          rw [(contains_iff_memN acc _).mpr hmem] at hc
          exact Bool.true_eq_false.mp hc
        simp [List.nodup_append, h, hnm]

/-- Evaluation of the per-line rewrite at a list-item line whose width occurs in
the first-seen width list: the closest width collapses to the own width. -/
theorem plb_line_item {W : List Nat} {l : Line} (hitem : is_list_item l = true)
    (hmem : get_indent_level l ∈ W) :
    plb_line (sortNat W) W l = some (plb_rewrite W l) := by
  have hs : (lstrip l).isEmpty = false := lstrip_ne_of_item hitem
  have hmem2 : get_indent_level l ∈ sortNat W := (mem_sortNat _ W).mpr hmem
  have harg := argminAbs_self hmem2
  simp only [plb_line, hs, Bool.false_eq_true, if_false, harg, hitem, if_true]
  rfl

end Normalization

/-- C1: inside one ListBlock the normalizer assigns each distinct list-item
indentation width a nesting level equal to its index in the first-seen
top-to-bottom width list (a width occurs there exactly when some list item of
the block has it, and the list has no duplicates, so the levels are 0, 1, 2,
... in first-seen order), and it rewrites every list-item line as two spaces
per level, a star and a space, then the content with its marker and numeric
dot prefix stripped; the quoted three-line example evaluates to exactly the
quoted output. -/
theorem c1_list_block_normalization :
    (∀ (lines out : List Line), process_list_block lines = some out →
      ∀ (i : Nat) (h : i < lines.length), is_list_item (lines.get ⟨i, h⟩) = true →
        out.get? i = some (plb_rewrite (collect_widths lines) (lines.get ⟨i, h⟩))) ∧
    (∀ (lines : List Line) (w : Nat),
      w ∈ collect_widths lines ↔
        ∃ l ∈ lines, is_list_item l = true ∧ get_indent_level l = w) ∧
    (∀ lines : List Line, (collect_widths lines).Nodup) ∧
    process_list_block [chars "* Item A", chars "  * Item B", chars "- Item C"] =
      some [chars "* Item A", chars "  * Item B", chars "* Item C", cm_list_block] := by
  refine ⟨?_, mem_collect_widths, fun lines => nodup_collect_loop lines [] (by simp), by decide⟩
  intro lines out hout i h hitem
  have hne : lines ≠ [] := by
    intro h0
    subst h0
    simp at h
  have hE : lines.isEmpty = false := (isEmpty_false_iff lines).mpr hne
  simp only [process_list_block, hE, Bool.false_eq_true, if_false] at hout
  cases ht : traverseO (plb_line (sortNat (collect_widths lines)) (collect_widths lines)) lines with
  | none => rw [ht] at hout; simp at hout
  | some body =>
    rw [ht] at hout
    simp only [Option.map_some', Option.some.injEq] at hout
    subst hout
    obtain ⟨hlen, hget⟩ := traverseO_some ht
    have hi2 : i < body.length := by rw [hlen]; exact h
    rw [List.get?_append hi2, hget i h]
    apply plb_line_item hitem
    exact (mem_collect_widths lines _).mpr
      ⟨lines.get ⟨i, h⟩, List.get_mem lines i h, hitem, rfl⟩

/-- Witness for C1 applying the positional rewrite statement to a concrete
one-item block. -/
theorem c1_list_block_normalization_witness :
    ([chars "* a", cm_list_block] : List Line).get? 0 =
      some (plb_rewrite (collect_widths [chars "* a"]) (chars "* a")) :=
  c1_list_block_normalization.1 [chars "* a"] [chars "* a", cm_list_block]
    (by decide) 0 (by decide) (by decide)

section Idempotence

theorem mem_dedupFS (a : Nat) : ∀ (l : List Nat), a ∈ dedupFS l ↔ a ∈ l := by
  intro l
  induction l with
  | nil => simp [dedupFS]
  | cons x xs ih =>
    simp only [dedupFS, List.mem_cons, List.mem_filter, ih, bne_iff_ne]
    constructor
    · rintro (h | ⟨h, _⟩)
      · exact Or.inl h
      · exact Or.inr h
    · rintro (h | h)
      · exact Or.inl h
      · by_cases hax : a = x
        · exact Or.inl hax
        · exact Or.inr ⟨h, hax⟩

theorem contains_false_of_not_mem {l : List Nat} {a : Nat} (h : a ∉ l) :
    l.contains a = false := by
  cases hc : l.contains a
  · rfl
  · exact absurd ((contains_iff_memN l a).mp hc) h

theorem collect_loop_eq : ∀ (ls : List Line) (acc : List Nat),
    collect_loop acc ls =
      acc ++ (dedupFS (item_widths ls)).filter (fun x => !(acc.contains x)) := by
  intro ls
  induction ls with
  | nil => intro acc; simp [collect_loop, item_widths, dedupFS]
  | cons l ls ih =>
    intro acc
    simp only [collect_loop]
    split_ifs with h1 h2
    · rw [ih]
      have hiw : item_widths (l :: ls) = get_indent_level l :: item_widths ls := by
        simp [item_widths, List.filter_cons, h1]
      rw [hiw]
      simp only [dedupFS, List.filter_cons, h2, Bool.not_true, Bool.false_eq_true, if_false]
      congr 1
      rw [List.filter_filter]
      apply List.filter_congr
      intro x _
      by_cases hxw : x = get_indent_level l
      · rw [hxw, h2]
        simp
      · simp [bne_iff_ne, hxw]
    · rw [ih]
      have hiw : item_widths (l :: ls) = get_indent_level l :: item_widths ls := by
        simp [item_widths, List.filter_cons, h1]
      rw [hiw]
      simp only [dedupFS, List.filter_cons, h2, Bool.not_false, if_true]
      rw [List.append_assoc, List.singleton_append]
      congr 2
      rw [List.filter_filter]
      apply List.filter_congr
      intro x _
      by_cases hxw : x = get_indent_level l
      · have hmem : x ∈ acc ++ [get_indent_level l] := by simp [hxw]
        rw [(contains_iff_memN (acc ++ [get_indent_level l]) x).mpr hmem]
        simp [bne_iff_ne, hxw]
      · cases hac : acc.contains x with
        | true =>
          have hx : x ∈ acc := (contains_iff_memN acc x).mp hac
          have hmem : x ∈ acc ++ [get_indent_level l] := by simp [hx]
          rw [(contains_iff_memN _ x).mpr hmem]
          simp
        | false =>
          have hx : x ∉ acc := by
            intro hm
            rw [(contains_iff_memN acc x).mpr hm] at hac
            exact Bool.true_eq_false.mp hac
          have hnm : x ∉ acc ++ [get_indent_level l] := by
            simp only [List.mem_append, List.mem_singleton]
            rintro (h | h)
            · exact hx h
            · exact hxw h
          rw [contains_false_of_not_mem hnm]
          simp [bne_iff_ne, hxw]
    · rw [ih]
      have hiw : item_widths (l :: ls) = item_widths ls := by
        simp [item_widths, List.filter_cons, h1]
      rw [hiw]

theorem collect_widths_eq (lines : List Line) :
    collect_widths lines = dedupFS (item_widths lines) := by
  rw [collect_widths, collect_loop_eq]
  have hcon : ∀ x : Nat, (([] : List Nat).contains x) = false := fun _ => rfl
  simp [hcon]

theorem dedupFS_map {g : Nat → Nat} : ∀ (ws : List Nat),
    (∀ a ∈ ws, ∀ b ∈ ws, g a = g b → a = b) →
    dedupFS (ws.map g) = (dedupFS ws).map g := by
  intro ws
  induction ws with
  | nil => intro _; rfl
  | cons x xs ih =>
    intro hinj
    simp only [List.map_cons, dedupFS]
    rw [ih (fun a ha b hb =>
      hinj a (List.mem_cons_of_mem x ha) b (List.mem_cons_of_mem x hb))]
    rw [List.filter_map]
    refine congrArg (fun t => g x :: List.map g t) (List.filter_congr ?_)
    intro y hy
    have hyxs : y ∈ xs := (mem_dedupFS y xs).mp hy
    by_cases hxy : y = x
    · subst hxy
      simp [Function.comp]
    · have hg : g y ≠ g x := fun he =>
        hxy (hinj y (List.mem_cons_of_mem x hyxs) x (List.mem_cons_self x xs) he)
      show (g y != g x) = (y != x)
      rw [bne_iff_ne.mpr hg, bne_iff_ne.mpr hxy]

theorem idxOf_inj : ∀ (W : List Nat) (a b : Nat),
    a ∈ W → b ∈ W → idxOf W a = idxOf W b → a = b := by
  intro W
  induction W with
  | nil => intro a b ha _ _; simp at ha
  | cons x xs ih =>
    intro a b ha hb hidx
    simp only [idxOf] at hidx
    by_cases hxa : x = a <;> by_cases hxb : x = b
    · exact hxa.symm.trans hxb
    · rw [if_pos hxa, if_neg hxb] at hidx
      exact absurd hidx (by omega)
    · rw [if_neg hxa, if_pos hxb] at hidx
      exact absurd hidx (by omega)
    · rw [if_neg hxa, if_neg hxb] at hidx
      have ha2 : a ∈ xs := by
        rcases List.mem_cons.mp ha with h | h
        · exact absurd h.symm hxa
        · exact h
      have hb2 : b ∈ xs := by
        rcases List.mem_cons.mp hb with h | h
        · exact absurd h.symm hxb
        · exact h
      exact ih a b ha2 hb2 (by omega)

theorem idxOf_map {g : Nat → Nat} : ∀ (W : List Nat),
    (∀ a ∈ W, ∀ b ∈ W, g a = g b → a = b) →
    ∀ w ∈ W, idxOf (W.map g) (g w) = idxOf W w := by
  intro W
  induction W with
  | nil => intro _ w hw; simp at hw
  | cons x xs ih =>
    intro hinj w hw
    simp only [List.map_cons, idxOf]
    by_cases hxw : x = w
    · rw [if_pos (by rw [hxw]), if_pos hxw]
    · have hgne : g x ≠ g w := fun he =>
        hxw (hinj x (List.mem_cons_self x xs) w hw he)
      rw [if_neg hgne, if_neg hxw]
      have hw2 : w ∈ xs := by
        rcases List.mem_cons.mp hw with h | h
        · exact absurd h.symm hxw
        · exact h
      rw [ih (fun a ha b hb =>
        hinj a (List.mem_cons_of_mem x ha) b (List.mem_cons_of_mem x hb)) w hw2]

theorem dropWhile_idem (p : α → Bool) : ∀ (l : List α),
    (l.dropWhile p).dropWhile p = l.dropWhile p := by
  intro l
  induction l with
  | nil => rfl
  | cons x xs ih =>
    cases hx : p x
    · simp [List.dropWhile_cons, hx]
    · simp [List.dropWhile_cons, hx, ih]

theorem item_content_fixed (s : Line) :
    (item_content s).dropWhile isPySpace = item_content s := by
  unfold item_content
  split_ifs
  · unfold subNumDot
    exact dropWhile_idem _ _
  · exact dropWhile_idem _ _

theorem dropWhile_replicate_append {p : α → Bool} {a : α} (ha : p a = true) :
    ∀ (n : Nat) (rest : List α),
      (List.replicate n a ++ rest).dropWhile p = rest.dropWhile p := by
  intro n
  induction n with
  | zero => intro rest; simp
  | succ n ih =>
    intro rest
    simp [List.replicate_succ, List.dropWhile_cons, ha, ih]

theorem lstrip_rewrite (W : List Nat) (l : Line) :
    lstrip (plb_rewrite W l) = '*' :: ' ' :: item_content (lstrip l) := by
  unfold plb_rewrite lstrip spaces
  rw [dropWhile_replicate_append (by decide)]
  simp [List.dropWhile_cons, show isPySpace '*' = false from rfl]

theorem item_rewrite (W : List Nat) (l : Line) :
    is_list_item (plb_rewrite W l) = true := by
  simp [is_list_item, lstrip_rewrite]

theorem width_rewrite (W : List Nat) (l : Line) :
    get_indent_level (plb_rewrite W l) = 2 * idxOf W (get_indent_level l) := by
  rw [show get_indent_level (plb_rewrite W l) =
      (plb_rewrite W l).length - (lstrip (plb_rewrite W l)).length from rfl]
  rw [lstrip_rewrite]
  simp only [plb_rewrite, spaces, List.length_append, List.length_replicate,
    List.length_cons]
  omega

theorem content_rewrite (W : List Nat) (l : Line) :
    item_content (lstrip (plb_rewrite W l)) = item_content (lstrip l) := by
  rw [lstrip_rewrite]
  have hfix := item_content_fixed (lstrip l)
  generalize hc : item_content (lstrip l) = c at hfix ⊢
  have hm : matchNumDot ('*' :: ' ' :: c) = false := by
    simp [matchNumDot, List.takeWhile_cons, show Char.isDigit '*' = false from rfl]
  rw [show item_content ('*' :: ' ' :: c) =
      if matchNumDot ('*' :: ' ' :: c) = true then subNumDot ('*' :: ' ' :: c)
      else ((('*' :: ' ' :: c).dropWhile markerChar).dropWhile isPySpace) from rfl]
  rw [hm]
  simp only [Bool.false_eq_true, if_false]
  rw [show ('*' :: ' ' :: c).dropWhile markerChar = ' ' :: c from by
    simp [List.dropWhile_cons, show markerChar '*' = true from rfl,
      show markerChar ' ' = false from rfl]]
  rw [show (' ' :: c).dropWhile isPySpace = c.dropWhile isPySpace from by
    simp [List.dropWhile_cons, show isPySpace ' ' = true from rfl]]
  exact hfix

theorem traverseO_map {f : α → Option β} {g : α → β} : ∀ {xs : List α},
    (∀ x ∈ xs, f x = some (g x)) → traverseO f xs = some (xs.map g) := by
  intro xs
  induction xs with
  | nil => intro _; rfl
  | cons x xs ih =>
    intro h
    simp [traverseO, h x (List.mem_cons_self x xs),
      ih (fun a ha => h a (List.mem_cons_of_mem x ha))]

theorem item_widths_all {lines : List Line} (h : ∀ l ∈ lines, is_list_item l = true) :
    item_widths lines = lines.map get_indent_level := by
  unfold item_widths
  rw [List.filter_eq_self.mpr h]

theorem plb_all_items (lines : List Line) (hne : lines ≠ [])
    (hall : ∀ l ∈ lines, is_list_item l = true) :
    process_list_block lines =
      some (lines.map (plb_rewrite (collect_widths lines)) ++ [cm_list_block]) := by
  have hE : lines.isEmpty = false := (isEmpty_false_iff lines).mpr hne
  simp only [process_list_block, hE, Bool.false_eq_true, if_false]
  rw [traverseO_map (fun l hl => plb_line_item (hall l hl)
    ((mem_collect_widths lines _).mpr ⟨l, hl, hall l hl, rfl⟩))]
  rfl

end Idempotence

/-- C5 counterexample: a block with a continuation line is not renormalized to
itself: the continuation line comes out indented one level deeper than before,
because its once-bumped indentation now sits closest to the width of the deeper
list level.  The first normalization of the three-line block emits the
continuation at two spaces; renormalizing the emitted body (without the
trailing comment) emits it at four spaces. -/
theorem c5_counterexample :
    process_list_block [chars "* a", chars "  * b", chars "cont"] =
      some [chars "* a", chars "  * b", chars "  cont", cm_list_block] ∧
    process_list_block [chars "* a", chars "  * b", chars "  cont"] =
      some [chars "* a", chars "  * b", chars "    cont", cm_list_block] ∧
    chars "    cont" ≠ chars "  cont" := by
  refine ⟨by decide, by decide, by decide⟩

/-- C5 (amended): list normalization is idempotent for ListBlocks consisting
solely of list-item lines: applying the normalizer to the rewritten lines it
produced, with the trailing comment removed, yields exactly the same result
again — nesting levels, indentation and markers unchanged.  The restriction to
blocks without non-list continuation lines is forced by the counterexample. -/
theorem c5_idempotent_amended :
    ∀ (lines : List Line), (∀ l ∈ lines, is_list_item l = true) →
      ∀ out, process_list_block lines = some out →
        process_list_block out.dropLast = process_list_block lines := by
  intro lines hall out hout
  by_cases hne : lines = []
  · subst hne
    have hout2 : out = [] := by
      simp only [process_list_block, List.isEmpty_nil, if_true, Option.some.injEq] at hout
      exact hout.symm
    subst hout2
    rfl
  · have hplb := plb_all_items lines hne hall
    rw [hplb] at hout
    have hout2 : out = lines.map (plb_rewrite (collect_widths lines)) ++ [cm_list_block] :=
      (Option.some.inj hout).symm
    subst hout2
    rw [List.dropLast_concat]
    have hBne : lines.map (plb_rewrite (collect_widths lines)) ≠ [] := by
      intro hB0
      exact hne (List.map_eq_nil.mp hB0)
    have hBall : ∀ x ∈ lines.map (plb_rewrite (collect_widths lines)),
        is_list_item x = true := by
      intro x hx
      obtain ⟨l, _, rfl⟩ := List.mem_map.mp hx
      exact item_rewrite (collect_widths lines) l
    rw [plb_all_items _ hBne hBall, hplb]
    have hinjW : ∀ a ∈ collect_widths lines, ∀ b ∈ collect_widths lines,
        2 * idxOf (collect_widths lines) a = 2 * idxOf (collect_widths lines) b → a = b := by
      intro a ha b hb hgab
      exact idxOf_inj (collect_widths lines) a b ha hb (by omega)
    have hWmem : ∀ a ∈ item_widths lines, a ∈ collect_widths lines := by
      intro a ha
      rw [collect_widths_eq]
      exact (mem_dedupFS a _).mpr ha
    have hWidthsB :
        item_widths (lines.map (plb_rewrite (collect_widths lines))) =
          (item_widths lines).map (fun w => 2 * idxOf (collect_widths lines) w) := by
      rw [item_widths_all hBall, item_widths_all hall]
      rw [List.map_map, List.map_map]
      apply List.map_congr_left
      intro l _
      exact width_rewrite (collect_widths lines) l
    have hW2 : collect_widths (lines.map (plb_rewrite (collect_widths lines))) =
        (collect_widths lines).map (fun w => 2 * idxOf (collect_widths lines) w) := by
      rw [collect_widths_eq, hWidthsB,
        dedupFS_map _ (fun a ha b hb hg => hinjW a (hWmem a ha) b (hWmem b hb) hg),
        ← collect_widths_eq]
    rw [hW2, List.map_map]
    suffices hmap : lines.map
        ((plb_rewrite ((collect_widths lines).map
          (fun w => 2 * idxOf (collect_widths lines) w))) ∘
          plb_rewrite (collect_widths lines)) =
        lines.map (plb_rewrite (collect_widths lines)) by
      rw [hmap]
    apply List.map_congr_left
    intro l hl
    have hwl : get_indent_level l ∈ collect_widths lines :=
      (mem_collect_widths lines _).mpr ⟨l, hl, hall l hl, rfl⟩
    show plb_rewrite ((collect_widths lines).map
        (fun w => 2 * idxOf (collect_widths lines) w))
        (plb_rewrite (collect_widths lines) l) =
      plb_rewrite (collect_widths lines) l
    have hidx : idxOf ((collect_widths lines).map
        (fun w => 2 * idxOf (collect_widths lines) w))
        (2 * idxOf (collect_widths lines) (get_indent_level l)) =
        idxOf (collect_widths lines) (get_indent_level l) :=
      idxOf_map (collect_widths lines) hinjW (get_indent_level l) hwl
    calc plb_rewrite ((collect_widths lines).map
          (fun w => 2 * idxOf (collect_widths lines) w))
          (plb_rewrite (collect_widths lines) l)
        = spaces (2 * idxOf ((collect_widths lines).map
              (fun w => 2 * idxOf (collect_widths lines) w))
              (get_indent_level (plb_rewrite (collect_widths lines) l))) ++
            '*' :: ' ' ::
              item_content (lstrip (plb_rewrite (collect_widths lines) l)) := rfl
      _ = spaces (2 * idxOf (collect_widths lines) (get_indent_level l)) ++
            '*' :: ' ' :: item_content (lstrip l) := by
          rw [width_rewrite, content_rewrite, hidx]
      _ = plb_rewrite (collect_widths lines) l := rfl

/-- Witness for C5 applying the amended idempotence to a concrete two-item
block. -/
theorem c5_idempotent_amended_witness :
    process_list_block
        ([chars "* a", chars "  * b", cm_list_block] : List Line).dropLast =
      process_list_block [chars "* a", chars "  * b"] :=
  c5_idempotent_amended [chars "* a", chars "  * b"] (by decide)
    [chars "* a", chars "  * b", cm_list_block] (by decide)
